import Mathlib

/-!
Verification development for the vibrato-analysis pipeline
(files util.py, acf_tracker.py, vibrato.py, rms_tracker.py).

The numerical code operates on numpy float arrays.  The embedding models a
float value as an element of the type FV, an optional rational: some q is the
finite value q, and none stands for a non-finite IEEE result (NaN, or an
infinity produced by dividing a nonzero value by zero).  Arithmetic on FV
propagates none, ordered comparisons against a none value are false, and
division by zero produces none; this mirrors the numpy behaviour that matters
on the paths analysed here, where every non-finite value that can reach a
comparison is a NaN.  A raised Python exception (ZeroDivisionError,
ValueError, IndexError) is modelled by the err constructor of the Res type.
-/

namespace VibratoAnalysis

/-- Model of one numpy float value: some q is a finite value, none is a
non-finite result (NaN or infinity). -/
abbrev FV : Type := Option ℚ

/-- Lift a binary rational operation to FV, propagating none. -/
def fvBin (f : ℚ → ℚ → ℚ) : FV → FV → FV
  | some a, some b => some (f a b)
  | _, _ => none

/-- Addition on FV. -/
def fvAdd : FV → FV → FV := fvBin (· + ·)

/-- Subtraction on FV. -/
def fvSub : FV → FV → FV := fvBin (· - ·)

/-- Multiplication on FV. -/
def fvMul : FV → FV → FV := fvBin (· * ·)

/-- Division on FV: division by zero and any operation on a non-finite
operand yield none, as the corresponding IEEE results are non-finite. -/
def fvDiv : FV → FV → FV
  | some a, some b => if b = 0 then none else some (a / b)
  | _, _ => none

/-- The comparison v greater than zero as numpy evaluates it: false whenever
v is NaN (modelled by none). -/
def fvPos : FV → Bool
  | some a => decide (0 < a)
  | none => false

/-- Sum of a list of FV values, none-propagating (numpy sum). -/
def fvSum (l : List FV) : FV := l.foldl fvAdd (some 0)

/-- Inner product of two FV lists (numpy dot restricted to equal prefixes). -/
def fvDot (x y : List FV) : FV := fvSum (List.zipWith fvMul x y)

/-- Median of three FV values; none if any input is non-finite.  The scipy
median filter leaves the ordering of NaN values unspecified, and no claim
exercises that case, so none-propagation is the total choice made here. -/
def fvMed3 (a b c : FV) : FV :=
  match a, b, c with
  | some x, some y, some z => some (max (min x y) (min (max x y) z))
  | _, _, _ => none

/-- One comparison step of the numpy argmax loop: the candidate v replaces
the current best cur when v is NaN and cur is not, or when v is strictly
greater; once the current best is NaN nothing replaces it (numpy argmax
returns the index of the first NaN when one is present, and otherwise the
first index attaining the maximum). -/
def fvBeats (v cur : FV) : Bool :=
  match cur, v with
  | none, _ => false
  | some _, none => true
  | some b, some a => decide (b < a)

/-- Accumulator loop of numpy argmax over the remaining list, where i is the
index of the next element, best the index of the current best value and bv
that value. -/
def fvArgmaxAux : List FV → ℕ → ℕ → FV → ℕ
  | [], _, best, _ => best
  | v :: rest, i, best, bv =>
    if fvBeats v bv then fvArgmaxAux rest (i + 1) i v
    else fvArgmaxAux rest (i + 1) best bv

/-- Model of np.argmax on a list of float values (0 on the empty list, where
numpy instead raises; the only call site guards against the empty list). -/
def npArgmax (l : List FV) : ℕ :=
  match l with
  | [] => 0
  | v :: rest => fvArgmaxAux rest 1 0 v

/-- Result of running a fragment of Python code: ok a is a normal return of
the value a, err is a raised exception (ZeroDivisionError, ValueError or
IndexError on the paths modelled here). -/
inductive Res (α : Type) where
  | ok (a : α) : Res α
  | err : Res α
deriving DecidableEq

/-- Run a Res-valued function over a list in order, aborting at the first
exception (the shape of the per-block loops in the source). -/
def mapRes {α β : Type} (f : α → Res β) : List α → Res (List β)
  | [] => .ok []
  | a :: rest =>
    match f a, mapRes f rest with
    | .ok b, .ok bs => .ok (b :: bs)
    | _, _ => .err

/-- Embedding of util.block_audio.  num_blocks is ceil(len(x) / hop_size)
computed by exact rational division; hop_size equal to 0 raises
ZeroDivisionError inside that expression, np.pad rejects a negative pad
width block_size, and np.zeros rejects a negative num_blocks.  Each block n
is the slice of the zero-padded signal from n*hop_size of length up to
block_size (the slice is written exactly as in the source, with the stop
index clamped to the padded length); the timestamps are n*hop_size/fs.  The
pad value is passed explicitly because the function is reused on the FV
valued contour, where the padded zero is some 0. -/
def block_audio {α : Type} (zero : α) (x : List α) (block_size hop_size : ℤ)
    (fs : ℚ) : Res (List (List α) × List FV) :=
  if hop_size = 0 then .err
  else
    let num_blocks : ℤ := ⌈(x.length : ℚ) / (hop_size : ℚ)⌉
    if block_size < 0 then .err
    else if num_blocks < 0 then .err
    else
      let padded := x ++ List.replicate block_size.toNat zero
      let xb := (List.range num_blocks.toNat).map (fun n =>
        let start := n * hop_size.toNat
        let stop := min padded.length (start + block_size.toNat)
        (padded.drop start).take (stop - start))
      let t := (List.range num_blocks.toNat).map (fun (n : ℕ) =>
        fvDiv (some ((n : ℚ) * (hop_size : ℚ))) (some fs))
      .ok (xb, t)

/-- Embedding of util.quadratic_interp on FV values.  The Python equality
test denominator == 0 is false for a NaN denominator, so only the exact
value some 0 selects the early return. -/
def quadratic_interp (a b c : FV) : FV :=
  let denominator := fvAdd (fvSub a (fvMul (some 2) b)) c
  if denominator = some 0 then some 0
  else fvDiv (fvMul (some (1 / 2)) (fvSub a c)) denominator

/-- Embedding of util.median_filter with the default window of 3 points
(scipy medfilt zero-pads at both ends). -/
def median_filter (x : List FV) : List FV :=
  (List.range x.length).map (fun i =>
    let left := if i = 0 then some 0 else x.getD (i - 1) (some 0)
    let mid := x.getD i (some 0)
    let right := x.getD (i + 1) (some 0)
    fvMed3 left mid right)

/-- Embedding of vibrato.vibrato_fs, the sample rate of the f0 contour:
fs / hop_size as Python scalar division, which raises ZeroDivisionError when
hop_size is 0. -/
def vibrato_fs (fs : ℚ) (hop_size : ℤ) : Res ℚ :=
  if hop_size = 0 then .err else .ok (fs / (hop_size : ℚ))

/-- The fields of util.VibratoTrackerParams: the three primary parameters,
the four keyword parameters, and the three derived fields computed by the
constructor. -/
structure VibratoTrackerParams where
  block_size : ℤ
  hop_size : ℤ
  fs : ℚ
  filter : Bool
  interpolate : Bool
  hop_denominator : ℤ
  window_duration : ℚ
  acf_fs : ℚ
  window_size : ℤ
  window_hop_size : ℤ
deriving DecidableEq

/-- Embedding of VibratoTrackerParams.__init__.  The constructor performs no
argument validation; it can only raise through the two divisions it
evaluates: vibrato_fs (ZeroDivisionError when hop_size is 0) and
window_size / hop_denominator (ZeroDivisionError when hop_denominator is 0).
The ceil calls are Python math.ceil on exact rational values. -/
def VibratoTrackerParams.init (block_size hop_size : ℤ) (fs : ℚ)
    (filter interpolate : Bool) (hop_denominator : ℤ) (window_duration : ℚ) :
    Res VibratoTrackerParams :=
  match vibrato_fs fs hop_size with
  | .err => .err
  | .ok acf_fs =>
    let window_size : ℤ := ⌈acf_fs * window_duration⌉
    if hop_denominator = 0 then .err
    else
      .ok ⟨block_size, hop_size, fs, filter, interpolate, hop_denominator,
        window_duration, acf_fs, window_size,
        ⌈(window_size : ℚ) / (hop_denominator : ℚ)⌉⟩

/-- Embedding of acf_tracker.comp_acf.  The right half of the full linear
autocorrelation of x is the sequence of lag products: the entry at lag l is
the inner product of x with x shifted by l.  With normalize, every entry is
divided by the lag-0 energy dot(x, x); numpy array division by a zero or
non-finite scalar makes every entry non-finite. -/
def comp_acf (x : List FV) (normalize : Bool) : List FV :=
  let norm : FV := if normalize then fvDot x x else some 1
  let correlation := (List.range x.length).map (fun l => fvDot x (x.drop l))
  correlation.map (fun c => fvDiv c norm)

/-- Embedding of acf_tracker.get_f0_from_acf.  diffs is np.diff of the ACF;
np.where(diffs greater than 0) followed by taking the first element is the
first index with a strictly positive difference; if none exists the function
returns 0.  Otherwise cutoff is max 1 of that index and np.argmax runs on
the slice after cutoff; when that slice is empty numpy raises ValueError
(modelled by err).  With interpolation the three neighbours of the peak are
read (the right one clamped at the end of the array) and the quadratic
offset is added to the integer lag before the final division fs / f. -/
def get_f0_from_acf (r : List FV) (fs : ℚ) (interpolate : Bool) : Res FV :=
  let diffs := List.zipWith fvSub (r.drop 1) r
  match List.findIdx? fvPos diffs with
  | none => .ok (some 0)
  | some cutoff_tmp =>
    let cutoff := max 1 cutoff_tmp
    let seg := r.drop (cutoff + 1)
    if seg.isEmpty then .err
    else
      let f := npArgmax seg + cutoff + 1
      let fval : FV :=
        if interpolate && decide (0 < f) then
          let a := r.getD (f - 1) none
          let b := r.getD f none
          let c := if f + 1 = r.length then r.getD f none else r.getD (f + 1) none
          fvAdd (some (f : ℚ)) (quadratic_interp a b c)
        else some (f : ℚ)
      .ok (fvDiv (some fs) fval)

/-- Embedding of acf_tracker.track_pitch_acf: block the signal, then per
block run the normalized ACF and the peak locator; the first exception in
the loop aborts the call. -/
def track_pitch_acf (x : List ℚ) (block_size hop_size : ℤ) (fs : ℚ)
    (interpolate : Bool) : Res (List FV × List FV) :=
  match block_audio (0 : ℚ) x block_size hop_size fs with
  | .err => .err
  | .ok (xb, t) =>
    match mapRes (fun block =>
        get_f0_from_acf (comp_acf (block.map some) true) fs interpolate) xb with
    | .err => .err
    | .ok f0 => .ok (f0, t)

/-- Embedding of vibrato.remove_mean: subtract np.mean, the sum divided by
the length (the mean of an empty array is the NaN 0/0). -/
def remove_mean (x : List FV) : List FV × FV :=
  let mean := fvDiv (fvSum x) (some (x.length : ℚ))
  (x.map (fun v => fvSub v mean), mean)

/-- One output sample of scipy.signal.lfilter by its documented direct-form
difference equation with zero initial conditions: a0 * y[n] equals the sum
of b[i] * x[n-i] minus the sum of a[j] * y[n-j] for j at least 1, where ys
holds the already computed outputs y[0..n-1]. -/
def lfilterNext (bc ac : List ℚ) (x : List FV) (ys : List FV) : FV :=
  let n := ys.length
  let bpart := fvSum ((List.range bc.length).map (fun i =>
    if i ≤ n then fvMul (some (bc.getD i 0)) (x.getD (n - i) (some 0))
    else some 0))
  let apart := fvSum ((List.range ac.length).map (fun j =>
    if 1 ≤ j ∧ j ≤ n then fvMul (some (ac.getD j 0)) (ys.getD (n - j) (some 0))
    else some 0))
  fvDiv (fvSub bpart apart) (some (ac.getD 0 0))

/-- Model of scipy.signal.lfilter (an external library call): the causal IIR
filter with coefficient lists bc and ac applied to x, one output per input
sample. -/
def lfilter (bc ac : List ℚ) (x : List FV) : List FV :=
  (List.range x.length).foldl (fun ys _ => ys ++ [lfilterNext bc ac x ys]) []

/-- Embedding of vibrato.vibrato_lpf.  The scipy buttord and butter design
of the Butterworth coefficients is transcendental real arithmetic external
to this repository, so the coefficient lists bc and ac are taken as
parameters; the function then applies lfilter to the contour. -/
def vibrato_lpf (bc ac : List ℚ) (f0 : List FV) (acf_fs : ℚ) : List FV :=
  lfilter bc ac f0

/-- Embedding of vibrato.vibrato_frequency: remove the mean unless the
caller states it is already removed, then run the normalized ACF and the
peak locator on the contour at its own sample rate. -/
def vibrato_frequency (f0 : List FV) (acf_fs : ℚ)
    (f0_is_normalized interpolate : Bool) : Res FV :=
  let f0n := if f0_is_normalized then f0 else (remove_mean f0).1
  get_f0_from_acf (comp_acf f0n true) acf_fs interpolate

/-- Embedding of vibrato.compute_processed_f0: track the pitch contour,
remove its mean, and when the filter flag is set apply the median filter
followed by the low-pass filter (whose designed coefficients are the
parameters bc and ac). -/
def compute_processed_f0 (bc ac : List ℚ) (x : List ℚ)
    (block_size hop_size : ℤ) (fs : ℚ) (filter interpolate : Bool) :
    Res (List FV × ℚ) :=
  match track_pitch_acf x block_size hop_size fs interpolate with
  | .err => .err
  | .ok (f0, _) =>
    match vibrato_fs fs hop_size with
    | .err => .err
    | .ok acf_fs =>
      let f0_norm := (remove_mean f0).1
      let f0_out :=
        if filter then vibrato_lpf bc ac (median_filter f0_norm) acf_fs
        else f0_norm
      .ok (f0_out, acf_fs)

/-- Embedding of vibrato.find_vibrato_freq_from_f0. -/
def find_vibrato_freq_from_f0 (f0_norm : List FV) (acf_fs : ℚ)
    (interpolate : Bool) : Res FV :=
  vibrato_frequency f0_norm acf_fs true interpolate

/-- Embedding of vibrato.track_vibrato_freq.  The source passes the Python
builtin function named filter, not the filter field of the params object, as
the filter argument of compute_processed_f0; a function object is truthy, so
the filtering branch is always taken, which the constant true records here.
The contour is re-blocked with block_audio, the last hop_denominator - 1
windows are cut (np.zeros raises ValueError when that count exceeds the
number of windows, and the loop would index out of range if the cut count
were negative), and the per-window rate is computed with
find_vibrato_freq_from_f0 at its default interpolate equal true. -/
def track_vibrato_freq (bc ac : List ℚ) (x : List ℚ)
    (p : VibratoTrackerParams) : Res (List FV × List FV) :=
  match compute_processed_f0 bc ac x p.block_size p.hop_size p.fs true
      p.interpolate with
  | .err => .err
  | .ok (f0, acf_fs) =>
    match block_audio (some 0 : FV) f0 p.window_size p.window_hop_size acf_fs with
    | .err => .err
    | .ok (windows, times) =>
      let cut_windows := p.hop_denominator - 1
      let num_windows : ℤ := (windows.length : ℤ) - cut_windows
      if num_windows < 0 then .err
      else if (windows.length : ℤ) < num_windows then .err
      else
        let times2 := times.take num_windows.toNat
        let windows2 := windows.take num_windows.toNat
        match mapRes (fun w => find_vibrato_freq_from_f0 w acf_fs true) windows2 with
        | .err => .err
        | .ok rates => .ok (rates, times2)

/-- Inner product of two rational lists (numpy dot on exact values). -/
def dotQ (x y : List ℚ) : ℚ := (List.zipWith (· * ·) x y).sum

/-- Embedding of rms_tracker.block_rms.  The true square root is irrational,
so the model takes the square-root function sq on rationals as a parameter
(its two properties used by the claims, nonnegativity and sq 0 = 0, hold for
np.sqrt exactly).  On an empty block the mean square is the NaN 0/0, np.sqrt
of NaN is NaN, and the comparison NaN less than epsilon is false, so the NaN
is returned unchanged. -/
def block_rms (sq : ℚ → ℚ) (x : List ℚ) : FV :=
  match fvDiv (some (dotQ x x)) (some (x.length : ℚ)) with
  | none => none
  | some m =>
    let rms := sq m
    if rms < 1 / 100000 then some (1 / 100000) else some rms

/-- Embedding of rms_tracker.extract_rms: one RMS value per block. -/
def extract_rms (sq : ℚ → ℚ) (xb : List (List ℚ)) : List FV :=
  xb.map (block_rms sq)

/-- Embedding of rms_tracker.track_rms. -/
def track_rms (sq : ℚ → ℚ) (x : List ℚ) (block_size hop_size : ℤ) (fs : ℚ) :
    Res (List FV × List FV) :=
  match block_audio (0 : ℚ) x block_size hop_size fs with
  | .err => .err
  | .ok (xb, t) => .ok (extract_rms sq xb, t)

/-- Embedding of rms_tracker.find_vibrato_freq_from_rms: the rate found on
the RMS contour (whose mean is removed inside vibrato_frequency) divided by
two. -/
def find_vibrato_freq_from_rms (rms : List FV) (acf_fs : ℚ)
    (interpolate : Bool) : Res FV :=
  match vibrato_frequency rms acf_fs false interpolate with
  | .err => .err
  | .ok v => .ok (fvDiv v (some 2))

/-- Embedding of rms_tracker.track_rms_vibrato_freq, the RMS-domain twin of
track_vibrato_freq. -/
def track_rms_vibrato_freq (sq : ℚ → ℚ) (x : List ℚ)
    (p : VibratoTrackerParams) : Res (List FV × List FV) :=
  match track_rms sq x p.block_size p.hop_size p.fs with
  | .err => .err
  | .ok (rms, _) =>
    match vibrato_fs p.fs p.hop_size with
    | .err => .err
    | .ok acf_fs =>
      match block_audio (some 0 : FV) rms p.window_size p.window_hop_size acf_fs with
      | .err => .err
      | .ok (windows, times) =>
        let cut_windows := p.hop_denominator - 1
        let num_windows : ℤ := (windows.length : ℤ) - cut_windows
        if num_windows < 0 then .err
        else if (windows.length : ℤ) < num_windows then .err
        else
          let times2 := times.take num_windows.toNat
          let windows2 := windows.take num_windows.toNat
          match mapRes (fun w => find_vibrato_freq_from_rms w acf_fs true) windows2 with
          | .err => .err
          | .ok rates => .ok (rates, times2)

/-- The quadratic-interpolation offset of the specification, written on
plain rationals from the formula of section 4.4 of the design: one half of
(a - c) over (a - 2b + c), with a zero denominator giving offset 0. -/
def qinterpQ (a b c : ℚ) : ℚ :=
  if a - 2 * b + c = 0 then 0 else 1 / 2 * (a - c) / (a - 2 * b + c)

/-- Rational twin of the numpy argmax loop, used to reason about npArgmax on
lists of finite values. -/
def argmaxQAux : List ℚ → ℕ → ℕ → ℚ → ℕ
  | [], _, best, _ => best
  | a :: rest, i, best, bv =>
    if bv < a then argmaxQAux rest (i + 1) i a
    else argmaxQAux rest (i + 1) best bv

@[simp] lemma fvAdd_some_some (a b : ℚ) : fvAdd (some a) (some b) = some (a + b) := rfl

@[simp] lemma fvSub_some_some (a b : ℚ) : fvSub (some a) (some b) = some (a - b) := rfl

@[simp] lemma fvMul_some_some (a b : ℚ) : fvMul (some a) (some b) = some (a * b) := rfl

@[simp] lemma fvAdd_none_left (v : FV) : fvAdd none v = none := rfl

@[simp] lemma fvAdd_none_right (v : FV) : fvAdd v none = none := by
  cases v <;> rfl

@[simp] lemma fvSub_none_left (v : FV) : fvSub none v = none := rfl

@[simp] lemma fvSub_none_right (v : FV) : fvSub v none = none := by
  cases v <;> rfl

@[simp] lemma fvMul_none_left (v : FV) : fvMul none v = none := rfl

@[simp] lemma fvMul_none_right (v : FV) : fvMul v none = none := by
  cases v <;> rfl

@[simp] lemma fvDiv_none_left (v : FV) : fvDiv none v = none := rfl

@[simp] lemma fvDiv_none_right (v : FV) : fvDiv v none = none := by
  cases v <;> rfl

lemma fvDiv_some_some (a b : ℚ) :
    fvDiv (some a) (some b) = if b = 0 then none else some (a / b) := rfl

@[simp] lemma fvDiv_some_zero (a : ℚ) : fvDiv (some a) (some 0) = none := rfl

lemma fvDiv_some_of_ne (a : ℚ) {b : ℚ} (hb : b ≠ 0) :
    fvDiv (some a) (some b) = some (a / b) := by
  simp [fvDiv_some_some, hb]

@[simp] lemma fvPos_none : fvPos none = false := rfl

@[simp] lemma fvPos_some (a : ℚ) : fvPos (some a) = decide (0 < a) := rfl

lemma foldl_fvAdd_map_some (l : List ℚ) : ∀ q : ℚ,
    (l.map some).foldl fvAdd (some q) = some (q + l.sum) := by
  induction l with
  | nil => intro q; simp
  | cons a rest ih =>
    intro q
    simp only [List.map_cons, List.foldl_cons, fvAdd_some_some, ih, List.sum_cons]
    ring_nf

lemma fvSum_map_some (l : List ℚ) : fvSum (l.map some) = some l.sum := by
  simpa using foldl_fvAdd_map_some l 0

lemma foldl_fvAdd_none (l : List FV) : l.foldl fvAdd none = none := by
  induction l with
  | nil => rfl
  | cons a rest ih => simpa using ih

lemma fvSum_eq_none_of_mem {l : List FV} (h : none ∈ l) : fvSum l = none := by
  unfold fvSum
  generalize (some 0 : FV) = init
  induction l generalizing init with
  | nil => simp at h
  | cons a rest ih =>
    rcases List.mem_cons.mp h with ha | hrest
    · subst ha
      simp only [List.foldl_cons, fvAdd_none_right]
      exact foldl_fvAdd_none rest
    · exact List.foldl_cons _ _ ▸ ih hrest _

lemma mem_some_of_fvSum_some {l : List FV} {s : ℚ} (h : fvSum l = some s) :
    ∀ v ∈ l, ∃ q : ℚ, v = some q := by
  intro v hv
  cases v with
  | some q => exact ⟨q, rfl⟩
  | none => rw [fvSum_eq_none_of_mem hv] at h; cases h

lemma zipWith_fvMul_map_some (a b : List ℚ) :
    List.zipWith fvMul (a.map some) (b.map some) =
      (List.zipWith (· * ·) a b).map some := by
  induction a generalizing b with
  | nil => simp
  | cons x xs ih =>
    cases b with
    | nil => simp
    | cons y ys => simp [ih]

lemma fvDot_map_some (a b : List ℚ) :
    fvDot (a.map some) (b.map some) = some (dotQ a b) := by
  rw [fvDot, zipWith_fvMul_map_some, fvSum_map_some, dotQ]

lemma mapRes_nil {α β : Type} (f : α → Res β) : mapRes f [] = .ok [] := rfl

lemma mapRes_cons_ok {α β : Type} (f : α → Res β) (a : α) (rest : List α)
    {b : β} {bs : List β} (ha : f a = .ok b) (hrest : mapRes f rest = .ok bs) :
    mapRes f (a :: rest) = .ok (b :: bs) := by
  simp [mapRes, ha, hrest]

lemma mapRes_ok {α β : Type} (f : α → Res β) :
    ∀ l : List α, (∀ x ∈ l, ∃ b, f x = .ok b) →
      ∃ ys, mapRes f l = .ok ys ∧ ys.length = l.length := by
  intro l hl
  induction l with
  | nil => exact ⟨[], rfl, rfl⟩
  | cons a rest ih =>
    obtain ⟨b, hb⟩ := hl a (List.mem_cons_self a rest)
    obtain ⟨ys, hys, hlen⟩ := ih (fun x hx => hl x (List.mem_cons_of_mem a hx))
    exact ⟨b :: ys, by simp [mapRes, hb, hys], by simp [hlen]⟩

lemma getD_drop {α : Type} (l : List α) (n i : ℕ) (d : α) :
    (l.drop n).getD i d = l.getD (n + i) d := by
  simp [List.getD_eq_getElem?_getD, List.getElem?_drop]

lemma getD_map_some (l : List ℚ) {k : ℕ} (h : k < l.length) :
    (l.map some).getD k none = some (l.getD k 0) := by
  simp [List.getD_eq_getElem?_getD, List.getElem?_map,
    List.getElem?_eq_getElem h]

lemma findIdx_getD_pred {α : Type} (p : α → Bool) (d : α) :
    ∀ l : List α, l.findIdx p < l.length → p (l.getD (l.findIdx p) d) = true := by
  intro l
  induction l with
  | nil => intro h; simp at h
  | cons a rest ih =>
    intro h
    rw [List.findIdx_cons] at h ⊢
    by_cases hp : p a
    · simp [hp]
    · simp only [hp, cond_false] at h ⊢
      rw [List.getD_cons_succ]
      exact ih (by simpa using h)

lemma findIdx_getD_min {α : Type} (p : α → Bool) (d : α) :
    ∀ l : List α, ∀ j < l.findIdx p, p (l.getD j d) = false := by
  intro l
  induction l with
  | nil => intro j hj; simp at hj
  | cons a rest ih =>
    intro j hj
    rw [List.findIdx_cons] at hj
    by_cases hp : p a
    · simp [hp] at hj
    · simp only [hp, cond_false] at hj
      cases j with
      | zero => simpa using hp
      | succ k =>
        rw [List.getD_cons_succ]
        exact ih k (by omega)

lemma findIdx_eq_of_getD {α : Type} (p : α → Bool) (d : α) :
    ∀ (l : List α) (i : ℕ), i < l.length → p (l.getD i d) = true →
      (∀ j < i, p (l.getD j d) = false) → l.findIdx p = i := by
  intro l
  induction l with
  | nil => intro i hi; simp at hi
  | cons a rest ih =>
    intro i hi hp hmin
    rw [List.findIdx_cons]
    cases i with
    | zero =>
      rw [List.getD_cons_zero] at hp
      simp [hp]
    | succ k =>
      have ha : p a = false := by simpa using hmin 0 (Nat.succ_pos k)
      simp only [ha, cond_false]
      rw [List.getD_cons_succ] at hp
      have := ih k (by simpa using hi) hp
        (fun j hj => by simpa using hmin (j + 1) (by omega))
      omega

lemma findIdx?_eq_some_of {α : Type} (p : α → Bool) (d : α) (l : List α)
    (i : ℕ) (hi : i < l.length) (hp : p (l.getD i d) = true)
    (hmin : ∀ j < i, p (l.getD j d) = false) : l.findIdx? p = some i := by
  rw [List.findIdx?_eq_some_iff_findIdx_eq]
  exact ⟨hi, findIdx_eq_of_getD p d l i hi hp hmin⟩

lemma findIdx?_some_facts {α : Type} {p : α → Bool} {l : List α} {i : ℕ}
    (d : α) (h : l.findIdx? p = some i) :
    i < l.length ∧ p (l.getD i d) = true ∧ ∀ j < i, p (l.getD j d) = false := by
  rw [List.findIdx?_eq_some_iff_findIdx_eq] at h
  obtain ⟨hlen, hidx⟩ := h
  subst hidx
  exact ⟨hlen, findIdx_getD_pred p d l hlen, findIdx_getD_min p d l⟩

lemma findIdx?_eq_none_of {α : Type} (p : α → Bool) (l : List α)
    (h : ∀ x ∈ l, p x = false) : l.findIdx? p = none := by
  rw [List.findIdx?_eq_none_iff]
  intro x hx
  simp [h x hx]

lemma fvArgmaxAux_map_some :
    ∀ (l : List ℚ) (i best : ℕ) (bv : ℚ),
      fvArgmaxAux (l.map some) i best (some bv) = argmaxQAux l i best bv := by
  intro l
  induction l with
  | nil => intro i best bv; rfl
  | cons a rest ih =>
    intro i best bv
    by_cases h : bv < a <;>
      simp [fvArgmaxAux, argmaxQAux, fvBeats, h, ih]

lemma argmaxQAux_spec :
    ∀ (l ctx : List ℚ) (best : ℕ), best < ctx.length →
      (∀ j < ctx.length, ctx.getD j 0 ≤ ctx.getD best 0) →
      (∀ j < best, ctx.getD j 0 < ctx.getD best 0) →
      argmaxQAux l ctx.length best (ctx.getD best 0) < (ctx ++ l).length ∧
      (∀ j < (ctx ++ l).length, (ctx ++ l).getD j 0 ≤
        (ctx ++ l).getD (argmaxQAux l ctx.length best (ctx.getD best 0)) 0) ∧
      (∀ j < argmaxQAux l ctx.length best (ctx.getD best 0),
        (ctx ++ l).getD j 0 <
        (ctx ++ l).getD (argmaxQAux l ctx.length best (ctx.getD best 0)) 0) := by
  intro l
  induction l with
  | nil =>
    intro ctx best hb hmax hfirst
    simp only [argmaxQAux, List.append_nil]
    refine ⟨hb, hmax, hfirst⟩
  | cons a rest ih =>
    intro ctx best hb hmax hfirst
    have hlen1 : (ctx ++ [a]).length = ctx.length + 1 := by simp
    have hgeta : (ctx ++ [a]).getD ctx.length 0 = a := by
      rw [List.getD_append_right ctx [a] 0 ctx.length (Nat.le_refl _)]
      simp
    have hgetlt : ∀ j < ctx.length, (ctx ++ [a]).getD j 0 = ctx.getD j 0 := by
      intro j hj
      exact List.getD_append ctx [a] 0 j hj
    have hassoc : (ctx ++ [a]) ++ rest = ctx ++ (a :: rest) := by
      rw [List.append_assoc, List.singleton_append]
    by_cases hcmp : ctx.getD best 0 < a
    · have step : argmaxQAux (a :: rest) ctx.length best (ctx.getD best 0) =
          argmaxQAux rest (ctx.length + 1) ctx.length a := by
        simp only [argmaxQAux]
        rw [if_pos hcmp]
      have ihres := ih (ctx ++ [a]) ctx.length
        (by omega)
        (by
          intro j hj
          rw [hlen1] at hj
          rw [hgeta]
          rcases Nat.lt_succ_iff_lt_or_eq.mp hj with hj' | hj'
          · rw [hgetlt j hj']
            exact le_of_lt (lt_of_le_of_lt (hmax j hj') hcmp)
          · subst hj'; rw [hgeta])
        (by
          intro j hj
          rw [hgeta, hgetlt j hj]
          exact lt_of_le_of_lt (hmax j hj) hcmp)
      rw [hlen1, hgeta, hassoc] at ihres
      rw [step]
      exact ihres
    · have step : argmaxQAux (a :: rest) ctx.length best (ctx.getD best 0) =
          argmaxQAux rest (ctx.length + 1) best (ctx.getD best 0) := by
        simp only [argmaxQAux]
        rw [if_neg hcmp]
      have hbest' : (ctx ++ [a]).getD best 0 = ctx.getD best 0 := hgetlt best hb
      have ihres := ih (ctx ++ [a]) best
        (by omega)
        (by
          intro j hj
          rw [hlen1] at hj
          rw [hbest']
          rcases Nat.lt_succ_iff_lt_or_eq.mp hj with hj' | hj'
          · rw [hgetlt j hj']
            exact hmax j hj'
          · subst hj'; rw [hgeta]; exact le_of_not_lt hcmp)
        (by
          intro j hj
          rw [hbest', hgetlt j (lt_trans hj hb)]
          exact hfirst j hj)
      rw [hlen1, hbest', hassoc] at ihres
      rw [step]
      exact ihres

lemma npArgmax_map_some_spec (u : List ℚ) (hu : u ≠ []) :
    npArgmax (u.map some) < u.length ∧
    (∀ j < u.length, u.getD j 0 ≤ u.getD (npArgmax (u.map some)) 0) ∧
    (∀ j < npArgmax (u.map some), u.getD j 0 < u.getD (npArgmax (u.map some)) 0) := by
  cases u with
  | nil => exact absurd rfl hu
  | cons a rest =>
    have h1 : npArgmax ((a :: rest).map some) = argmaxQAux rest 1 0 a := by
      rw [List.map_cons]
      show fvArgmaxAux (rest.map some) 1 0 (some a) = _
      exact fvArgmaxAux_map_some rest 1 0 a
    have h2 := argmaxQAux_spec rest [a] 0 (by simp)
      (by
        intro j hj
        have hj0 : j = 0 := by simpa using hj
        subst hj0
        simp)
      (by intro j hj; omega)
    simp only [List.length_singleton, List.getD_cons_zero, List.singleton_append] at h2
    rw [h1]
    simpa using h2

lemma comp_acf_length (x : List FV) (nrm : Bool) :
    (comp_acf x nrm).length = x.length := by
  simp [comp_acf]

lemma comp_acf_two (w0 w1 : FV) :
    comp_acf [w0, w1] true =
      [fvDiv (fvDot [w0, w1] [w0, w1]) (fvDot [w0, w1] [w0, w1]),
       fvDiv (fvDot [w0, w1] [w1]) (fvDot [w0, w1] [w0, w1])] := by
  simp [comp_acf, List.range_succ]

lemma get_f0_comp_acf_ok (w : List FV) (fs : ℚ) (itp : Bool) :
    ∃ v, get_f0_from_acf (comp_acf w true) fs itp = .ok v := by
  cases hfi : List.findIdx? fvPos
      (List.zipWith fvSub ((comp_acf w true).drop 1) (comp_acf w true)) with
  | none =>
    refine ⟨some 0, ?_⟩
    simp only [get_f0_from_acf, hfi]
  | some ct =>
    obtain ⟨hctlt, hpred, -⟩ := findIdx?_some_facts none hfi
    have hdlen : (List.zipWith fvSub ((comp_acf w true).drop 1)
        (comp_acf w true)).length = (comp_acf w true).length - 1 := by
      rw [List.length_zipWith, List.length_drop]
      omega
    rw [hdlen] at hctlt
    by_cases h3 : 3 ≤ (comp_acf w true).length
    · have hm : max 1 ct ≤ (comp_acf w true).length - 2 :=
        Nat.max_le.mpr ⟨by omega, by omega⟩
      have hlenpos : 0 < ((comp_acf w true).drop (max 1 ct + 1)).length := by
        rw [List.length_drop]
        omega
      have hemp : ((comp_acf w true).drop (max 1 ct + 1)).isEmpty = false := by
        cases hcc : (comp_acf w true).drop (max 1 ct + 1) with
        | nil => rw [hcc] at hlenpos; simp at hlenpos
        | cons _ _ => rfl
      cases hres : get_f0_from_acf (comp_acf w true) fs itp with
      | ok v => exact ⟨v, rfl⟩
      | err =>
        simp only [get_f0_from_acf, hfi, hemp, Bool.false_eq_true, if_false]
          at hres
        exact Res.noConfusion hres
    · have hrl : (comp_acf w true).length = 2 := by omega
      have hct0 : ct = 0 := by omega
      subst hct0
      have hwl : w.length = 2 := by
        rw [← comp_acf_length w true]
        exact hrl
      obtain ⟨w0, w1, rfl⟩ := List.length_eq_two.mp hwl
      rw [comp_acf_two] at hpred
      have hpred' : fvPos (fvSub
          (fvDiv (fvDot [w0, w1] [w1]) (fvDot [w0, w1] [w0, w1]))
          (fvDiv (fvDot [w0, w1] [w0, w1]) (fvDot [w0, w1] [w0, w1]))) = true :=
        hpred
      cases w0 with
      | none =>
        have hz : fvDot [(none : FV), w1] [(none : FV), w1] = none := by
          cases w1 <;> rfl
        rw [hz] at hpred'
        simp at hpred'
      | some u =>
        cases w1 with
        | none =>
          have hz : fvDot [some u, (none : FV)] [some u, (none : FV)] = none := by
            rfl
          rw [hz] at hpred'
          simp at hpred'
        | some v =>
          have hc0 : fvDot [some u, some v] [some u, some v] =
              some (0 + u * u + v * v) := rfl
          have hc1 : fvDot [some u, some v] [some v] = some (0 + u * v) := rfl
          rw [hc0, hc1] at hpred'
          by_cases hs0 : 0 + u * u + v * v = 0
          · rw [hs0] at hpred'
            simp at hpred'
          · rw [fvDiv_some_of_ne _ hs0, fvDiv_some_of_ne _ hs0,
              fvSub_some_some, fvPos_some, decide_eq_true_eq] at hpred'
            have hnn : (0:ℚ) ≤ 0 + u * u + v * v := by
              nlinarith [mul_self_nonneg u, mul_self_nonneg v]
            have hspos : 0 < 0 + u * u + v * v := by
              rcases lt_or_eq_of_le hnn with h | h
              · exact h
              · exact absurd h.symm hs0
            have hle : (0 + u * v) / (0 + u * u + v * v) ≤ 1 := by
              rw [div_le_one hspos]
              nlinarith [sq_nonneg (u - v), sq_nonneg u, sq_nonneg v]
            rw [div_self hs0] at hpred'
            linarith

lemma block_audio_eq {α : Type} (zero : α) (x : List α) (B H : ℤ) (fs : ℚ)
    (hB : 0 ≤ B) (hH : 1 ≤ H) :
    block_audio zero x B H fs = .ok (
      (List.range (⌈(x.length : ℚ) / (H : ℚ)⌉).toNat).map (fun n =>
        ((x ++ List.replicate B.toNat zero).drop (n * H.toNat)).take
          (min (x ++ List.replicate B.toNat zero).length
            (n * H.toNat + B.toNat) - n * H.toNat)),
      (List.range (⌈(x.length : ℚ) / (H : ℚ)⌉).toNat).map (fun (n : ℕ) =>
        fvDiv (some ((n : ℚ) * (H : ℚ))) (some fs))) := by
  have hH0 : H ≠ 0 := by omega
  have hnb : ¬ (⌈(x.length : ℚ) / (H : ℚ)⌉ < 0) := by
    push_neg
    apply Int.ceil_nonneg
    apply div_nonneg
    · exact_mod_cast Nat.zero_le _
    · exact_mod_cast (by omega : (0:ℤ) ≤ H)
  simp only [block_audio]
  rw [if_neg hH0, if_neg (not_lt.mpr hB), if_neg hnb]

lemma block_audio_ok_lengths {α : Type} (zero : α) (x : List α) (B H : ℤ)
    (fs : ℚ) (hB : 0 ≤ B) (hH : 1 ≤ H) :
    ∃ xb t, block_audio zero x B H fs = .ok (xb, t) ∧
      (xb.length : ℤ) = ⌈(x.length : ℚ) / (H : ℚ)⌉ ∧ t.length = xb.length := by
  refine ⟨_, _, block_audio_eq zero x B H fs hB hH, ?_, ?_⟩
  · rw [List.length_map, List.length_range]
    apply Int.toNat_of_nonneg
    apply Int.ceil_nonneg
    apply div_nonneg
    · exact_mod_cast Nat.zero_le _
    · exact_mod_cast (by omega : (0:ℤ) ≤ H)
  · simp

lemma remove_mean_length (x : List FV) : (remove_mean x).1.length = x.length := by
  simp [remove_mean]

lemma median_filter_length (x : List FV) :
    (median_filter x).length = x.length := by
  simp [median_filter]

lemma foldl_append_length (g : List FV → FV) :
    ∀ (l : List ℕ) (init : List FV),
      (l.foldl (fun ys _ => ys ++ [g ys]) init).length = init.length + l.length := by
  intro l
  induction l with
  | nil => intro init; simp
  | cons a rest ih =>
    intro init
    rw [List.foldl_cons, ih]
    simp
    omega

lemma lfilter_length (bc ac : List ℚ) (x : List FV) :
    (lfilter bc ac x).length = x.length := by
  unfold lfilter
  rw [foldl_append_length (lfilterNext bc ac x) (List.range x.length) []]
  simp

lemma compute_processed_f0_ok (bc ac : List ℚ) (x : List ℚ) (B H : ℤ)
    (fs : ℚ) (fl itp : Bool) (hB : 0 ≤ B) (hH : 1 ≤ H) :
    ∃ f0n, compute_processed_f0 bc ac x B H fs fl itp =
        .ok (f0n, fs / (H : ℚ)) ∧
      (f0n.length : ℤ) = ⌈(x.length : ℚ) / (H : ℚ)⌉ := by
  obtain ⟨xb, t, hba, hxblen, htlen⟩ :=
    block_audio_ok_lengths (0 : ℚ) x B H fs hB hH
  obtain ⟨f0, hmap, hf0len⟩ := mapRes_ok
    (fun block => get_f0_from_acf (comp_acf (block.map some) true) fs itp) xb
    (fun blk _ => get_f0_comp_acf_ok (blk.map some) fs itp)
  have htp : track_pitch_acf x B H fs itp = .ok (f0, t) := by
    simp only [track_pitch_acf, hba, hmap]
  have hvfs : vibrato_fs fs H = .ok (fs / (H : ℚ)) := by
    rw [vibrato_fs, if_neg (by omega : ¬ H = 0)]
  refine ⟨if fl then vibrato_lpf bc ac (median_filter (remove_mean f0).1)
      (fs / (H : ℚ)) else (remove_mean f0).1, ?_, ?_⟩
  · simp only [compute_processed_f0, htp, hvfs]
  · have hl : (if fl then vibrato_lpf bc ac (median_filter (remove_mean f0).1)
        (fs / (H : ℚ)) else (remove_mean f0).1).length = f0.length := by
      cases fl <;>
        simp [vibrato_lpf, lfilter_length, median_filter_length,
          remove_mean_length]
    rw [hl, hf0len, hxblen]

lemma dotQ_nil_left (l : List ℚ) : dotQ [] l = 0 := rfl

lemma dotQ_cons (a b : ℚ) (x y : List ℚ) :
    dotQ (a :: x) (b :: y) = a * b + dotQ x y := by
  simp [dotQ]

lemma dotQ_zero_left : ∀ (n : ℕ) (l : List ℚ), dotQ (List.replicate n 0) l = 0 := by
  intro n
  induction n with
  | zero => intro l; rfl
  | succ m ih =>
    intro l
    cases l with
    | nil => rfl
    | cons b t =>
      rw [List.replicate_succ, dotQ_cons, ih]
      ring

lemma dotQ_eq_zero_of_all_zero : ∀ (x : List ℚ), (∀ a ∈ x, a = 0) → dotQ x x = 0 := by
  intro x
  induction x with
  | nil => intro _; rfl
  | cons a t ih =>
    intro h
    rw [dotQ_cons, h a (List.mem_cons_self a t),
      ih (fun b hb => h b (List.mem_cons_of_mem a hb))]
    ring

lemma fvDiv_zero_den (c : FV) : fvDiv c (some 0) = none := by
  cases c <;> simp [fvDiv]

lemma zipWith_getD (f : FV → FV → FV) :
    ∀ (l1 l2 : List FV) (i : ℕ), i < (List.zipWith f l1 l2).length →
      (List.zipWith f l1 l2).getD i none = f (l1.getD i none) (l2.getD i none) := by
  intro l1
  induction l1 with
  | nil => intro l2 i h; simp at h
  | cons a t1 ih =>
    intro l2 i h
    cases l2 with
    | nil => simp at h
    | cons b t2 =>
      cases i with
      | zero => rfl
      | succ k =>
        simp only [List.zipWith_cons_cons, List.getD_cons_succ]
        exact ih t2 k (by simpa using h)

lemma findIdx?_diffs_none (r : List FV)
    (h : ∀ i, i + 1 < r.length →
      fvPos (fvSub (r.getD (i + 1) none) (r.getD i none)) = false) :
    List.findIdx? fvPos (List.zipWith fvSub (r.drop 1) r) = none := by
  apply findIdx?_eq_none_of
  intro d hd
  obtain ⟨i, hi, heq⟩ := List.mem_iff_getElem.mp hd
  have hgetD : (List.zipWith fvSub (r.drop 1) r).getD i none = d := by
    rw [List.getD_eq_getElem?_getD, List.getElem?_eq_getElem hi, heq]
    rfl
  have hlen : i + 1 < r.length := by
    rw [List.length_zipWith, List.length_drop] at hi
    omega
  rw [← hgetD, zipWith_getD fvSub (r.drop 1) r i hi, getD_drop r 1 i none,
    Nat.add_comm 1 i]
  exact h i hlen

lemma comp_acf_map_some (u : List ℚ) :
    comp_acf (u.map some) true = (List.range u.length).map (fun l =>
      fvDiv (some (dotQ u (u.drop l))) (some (dotQ u u))) := by
  simp only [comp_acf, List.length_map, List.map_map, if_true]
  apply List.map_congr_left
  intro l _
  simp only [Function.comp]
  rw [← List.map_drop, fvDot_map_some, fvDot_map_some]

lemma comp_acf_replicate_zero (n : ℕ) (nrm : Bool) :
    comp_acf (List.replicate n (some 0)) nrm =
      List.replicate n (if nrm then none else some 0) := by
  have hx : (List.replicate n (some (0:ℚ))) = (List.replicate n (0:ℚ)).map some := by
    rw [List.map_replicate]
  have hdot : ∀ l : ℕ, fvDot (List.replicate n (some (0:ℚ)))
      ((List.replicate n (some (0:ℚ))).drop l) = some 0 := by
    intro l
    rw [hx, ← List.map_drop, fvDot_map_some, List.drop_replicate,
      dotQ_zero_left]
  have hdot0 : fvDot (List.replicate n (some (0:ℚ)))
      (List.replicate n (some (0:ℚ))) = some 0 := by
    have := hdot 0
    rwa [List.drop_zero] at this
  rw [List.eq_replicate_iff]
  refine ⟨by simp [comp_acf_length], ?_⟩
  intro b hb
  simp only [comp_acf, List.mem_map, List.mem_range] at hb
  obtain ⟨c, ⟨l, hl, rfl⟩, rfl⟩ := hb
  cases nrm with
  | true =>
    simp only [if_true]
    rw [hdot l, hdot0]
    exact fvDiv_zero_den _
  | false =>
    simp only [Bool.false_eq_true, if_false]
    rw [hdot l]
    norm_num [fvDiv]

lemma dotQ_scale (k : ℚ) :
    ∀ (a b : List ℚ), dotQ (a.map (fun s => k * s)) (b.map (fun s => k * s)) =
      k * k * dotQ a b := by
  intro a
  induction a with
  | nil => intro b; simp [dotQ]
  | cons x xs ih =>
    intro b
    cases b with
    | nil => simp [dotQ]
    | cons y ys =>
      simp only [List.map_cons, dotQ_cons, ih]
      ring

lemma map_range_getD {α : Type} (g : ℕ → α) (m n : ℕ) (d : α) (h : n < m) :
    ((List.range m).map g).getD n d = g n := by
  rw [List.getD_eq_getElem?_getD, List.getElem?_map, List.getElem?_range h]
  rfl

/-- Claim C2 (code bug, theorem evaluating the code at the failing input):
on the all-zero block of zero energy, comp_acf with normalize set divides
the zero correlation entries by the zero energy, producing NaN in every
entry (0/0 under IEEE arithmetic, modelled by none); the claimed and
specified result, a vector of zeros, is not what the code computes. -/
theorem c2_zero_energy_acf_is_nan :
    comp_acf [some 0, some 0, some 0] true = [none, none, none] := by
  have h := comp_acf_replicate_zero 3 true
  simp only [List.replicate, if_true] at h
  exact h

/-- Claim C3 (amended): constructing VibratoTrackerParams performs no
argument validation at all; construction succeeds exactly when the two
divisions it evaluates are defined, that is when hop_size and
hop_denominator are nonzero (a zero value raises ZeroDivisionError, not a
dedicated InvalidArgument); non-positive block_size, sample_rate or derived
window sizes are accepted silently.  block_audio with hop_size 0 likewise
fails with ZeroDivisionError inside the num_blocks expression. -/
theorem c3_no_validation_at_construction :
    (∀ (bs hs : ℤ) (fs : ℚ) (fl itp : Bool) (hd : ℤ) (wd : ℚ),
      (∃ p, VibratoTrackerParams.init bs hs fs fl itp hd wd = .ok p) ↔
        (hs ≠ 0 ∧ hd ≠ 0)) ∧
    (∀ (x : List ℚ) (B : ℤ) (fs : ℚ), block_audio (0 : ℚ) x B 0 fs = .err) := by
  constructor
  · intro bs hs fs fl itp hd wd
    constructor
    · rintro ⟨p, hp⟩
      by_cases h1 : hs = 0
      · simp [VibratoTrackerParams.init, vibrato_fs, h1] at hp
      · by_cases h2 : hd = 0
        · simp [VibratoTrackerParams.init, vibrato_fs, h1, h2] at hp
        · exact ⟨h1, h2⟩
    · rintro ⟨h1, h2⟩
      refine ⟨⟨bs, hs, fs, fl, itp, hd, wd, fs / (hs : ℚ),
        ⌈fs / (hs : ℚ) * wd⌉,
        ⌈((⌈fs / (hs : ℚ) * wd⌉ : ℚ)) / (hd : ℚ)⌉⟩, ?_⟩
      simp only [VibratoTrackerParams.init, vibrato_fs, h1, h2, if_false]
  · intro x B fs
    simp [block_audio]

/-- Claim C3, counterexample to the claim as stated: construction with a
non-positive block_size, a negative hop_size, or a zero sample rate
completes normally instead of raising InvalidArgument. -/
theorem c3_counterexample :
    VibratoTrackerParams.init (-7) 1 1 true true 5 (1/2) ≠ .err ∧
    VibratoTrackerParams.init 2048 (-4) 44100 true true 5 (1/2) ≠ .err ∧
    VibratoTrackerParams.init 2048 1024 0 true true 5 (1/2) ≠ .err := by
  refine ⟨?_, ?_, ?_⟩ <;>
  · norm_num [VibratoTrackerParams.init, vibrato_fs]
    exact fun h => Res.noConfusion h

/-- Claim C7: the all-zero block yields F0 equal 0 through the ACF (under
either normalize setting) and the peak locator, with no NaN result and no
exception; and any ACF vector with no strictly positive first difference
(in particular a monotonically decreasing one) makes the locator return 0. -/
theorem c7_silence_and_no_peak :
    (∀ (n : ℕ) (fs : ℚ) (itp nrm : Bool),
      get_f0_from_acf (comp_acf (List.replicate n (some 0)) nrm) fs itp =
        .ok (some 0)) ∧
    (∀ (r : List ℚ) (fs : ℚ) (itp : Bool),
      (∀ j, j + 1 < r.length → r.getD (j + 1) 0 ≤ r.getD j 0) →
      get_f0_from_acf (r.map some) fs itp = .ok (some 0)) := by
  constructor
  · intro n fs itp nrm
    rw [comp_acf_replicate_zero]
    have hnone : List.findIdx? fvPos
        (List.zipWith fvSub ((List.replicate n (if nrm then none
          else some (0:ℚ))).drop 1) (List.replicate n (if nrm then none
          else some (0:ℚ)))) = none := by
      apply findIdx?_diffs_none
      intro i hi
      rw [List.length_replicate] at hi
      have h1 : (List.replicate n (if nrm then none else some (0:ℚ))).getD
          (i + 1) none = (if nrm then none else some (0:ℚ)) := by
        rw [List.getD_eq_getElem?_getD, List.getElem?_replicate,
          if_pos (by omega : i + 1 < n)]
        rfl
      have h2 : (List.replicate n (if nrm then none else some (0:ℚ))).getD
          i none = (if nrm then none else some (0:ℚ)) := by
        rw [List.getD_eq_getElem?_getD, List.getElem?_replicate,
          if_pos (by omega : i < n)]
        rfl
      rw [h1, h2]
      cases nrm <;> simp
    simp only [get_f0_from_acf, hnone]
  · intro r fs itp h
    have hnone : List.findIdx? fvPos
        (List.zipWith fvSub ((r.map some).drop 1) (r.map some)) = none := by
      apply findIdx?_diffs_none
      intro i hi
      rw [List.length_map] at hi
      rw [getD_map_some r (by omega : i + 1 < r.length),
        getD_map_some r (by omega : i < r.length), fvSub_some_some,
        fvPos_some, decide_eq_false_iff_not]
      have := h i hi
      linarith
    simp only [get_f0_from_acf, hnone]

/-- Claim C7, witness at a concrete strictly decreasing ACF vector. -/
theorem c7_witness :
    (∀ j, j + 1 < ([3, 2, 1] : List ℚ).length →
      ([3, 2, 1] : List ℚ).getD (j + 1) 0 ≤ ([3, 2, 1] : List ℚ).getD j 0) ∧
    get_f0_from_acf (([3, 2, 1] : List ℚ).map some) 5 true = .ok (some 0) := by
  constructor
  · intro j hj
    simp only [List.length_cons, List.length_nil] at hj
    have hj2 : j = 0 ∨ j = 1 := by omega
    rcases hj2 with rfl | rfl <;> norm_num
  · exact c7_silence_and_no_peak.2 [3, 2, 1] 5 true (by
      intro j hj
      simp only [List.length_cons, List.length_nil] at hj
      have hj2 : j = 0 ∨ j = 1 := by omega
      rcases hj2 with rfl | rfl <;> norm_num)

/-- Claim C8: the normalized autocorrelation is invariant under scaling the
signal by any nonzero rational factor, since both the correlation entries
and the zero-lag energy scale by the square of the factor (and for a
zero-energy signal both sides are the same NaN vector). -/
theorem c8_scale_invariance (x : List ℚ) (k : ℚ) (hk : k ≠ 0) :
    comp_acf ((x.map (fun s => k * s)).map some) true =
      comp_acf (x.map some) true := by
  rw [comp_acf_map_some, comp_acf_map_some, List.length_map]
  apply List.map_congr_left
  intro l _
  rw [← List.map_drop, dotQ_scale, dotQ_scale]
  by_cases hz : dotQ x x = 0
  · rw [hz, mul_zero, fvDiv_zero_den, fvDiv_zero_den]
  · have hkk : k * k ≠ 0 := mul_ne_zero hk hk
    rw [fvDiv_some_of_ne _ (mul_ne_zero hkk hz), fvDiv_some_of_ne _ hz,
      mul_div_mul_left _ _ hkk]

/-- Claim C8, witness at a concrete signal and factor. -/
theorem c8_witness :
    (2 : ℚ) ≠ 0 ∧
    comp_acf ((([1, 2] : List ℚ).map (fun s => 2 * s)).map some) true =
      comp_acf (([1, 2] : List ℚ).map some) true :=
  ⟨by norm_num, c8_scale_invariance [1, 2] 2 (by norm_num)⟩

/-- Claim C9 (amended): on every nonempty block the RMS is floored at
1e-5 (exactly 1e-5 on an all-zero block, given that the square root of 0 is
0, which holds exactly for np.sqrt); the empty block, excluded by the
amendment, instead produces the NaN 0/0. -/
theorem c9_rms_floor (sq : ℚ → ℚ) (x : List ℚ) (hx : x ≠ []) :
    (∃ q, block_rms sq x = some q ∧ 1 / 100000 ≤ q) ∧
    (sq 0 = 0 → (∀ a ∈ x, a = 0) → block_rms sq x = some (1 / 100000)) := by
  have hlen : ((x.length : ℚ)) ≠ 0 := by
    have : x.length ≠ 0 := fun h => hx (List.length_eq_zero.mp h)
    exact_mod_cast this
  constructor
  · by_cases hc : sq (dotQ x x / (x.length : ℚ)) < 1 / 100000
    · refine ⟨1 / 100000, ?_, le_refl _⟩
      simp only [block_rms, fvDiv_some_of_ne _ hlen]
      rw [if_pos hc]
    · refine ⟨sq (dotQ x x / (x.length : ℚ)), ?_, le_of_not_lt hc⟩
      simp only [block_rms, fvDiv_some_of_ne _ hlen]
      rw [if_neg hc]
  · intro hsq hzero
    have hdot : dotQ x x = 0 := dotQ_eq_zero_of_all_zero x hzero
    simp only [block_rms, fvDiv_some_of_ne _ hlen, hdot, zero_div, hsq]
    rw [if_pos (by norm_num : (0:ℚ) < 1 / 100000)]

/-- Claim C9, counterexample to the claim as stated: the empty block is
vacuously all-zero, yet block_rms returns the NaN produced by the division
0/0 (the square-root stand-in is irrelevant on this path), not a value at
least 1e-5. -/
theorem c9_counterexample :
    block_rms (fun q => q) [] = none ∧ (none : FV) ≠ some (1 / 100000) := by
  constructor
  · norm_num [block_rms, dotQ, fvDiv]
  · simp

/-- Claim C9, witness at a concrete all-zero block with the identity
standing in for the square root (only its value at 0 matters here). -/
theorem c9_witness :
    (([0, 0] : List ℚ) ≠ []) ∧
    ((∃ q, block_rms (fun q => q) [0, 0] = some q ∧ 1 / 100000 ≤ q) ∧
      ((fun q : ℚ => q) 0 = 0 → (∀ a ∈ ([0, 0] : List ℚ), a = 0) →
        block_rms (fun q => q) [0, 0] = some (1 / 100000))) :=
  ⟨by simp, c9_rms_floor (fun q => q) [0, 0] (by simp)⟩

/-- Claim C10: with interpolation disabled the peak locator never divides
by zero: every run either raises (the empty-slice argmax), returns the
no-peak sentinel 0, or returns fs / f for an integer peak lag f of at least
2 (cutoff at least 1 and f at least cutoff + 1), so the final division is
always by a positive integer. -/
theorem c10_no_division_by_zero (r : List FV) (fs : ℚ) :
    get_f0_from_acf r fs false = .err ∨
    get_f0_from_acf r fs false = .ok (some 0) ∨
    ∃ f : ℕ, 2 ≤ f ∧
      get_f0_from_acf r fs false = .ok (some (fs / (f : ℚ))) := by
  cases hfi : List.findIdx? fvPos (List.zipWith fvSub (r.drop 1) r) with
  | none =>
    right; left
    simp only [get_f0_from_acf, hfi]
  | some ct =>
    cases hemp : (r.drop (max 1 ct + 1)).isEmpty with
    | true =>
      left
      simp only [get_f0_from_acf, hfi, hemp, if_true]
    | false =>
      right; right
      refine ⟨npArgmax (r.drop (max 1 ct + 1)) + max 1 ct + 1, ?_, ?_⟩
      · have := Nat.le_max_left 1 ct
        omega
      · have hne : ((npArgmax (r.drop (max 1 ct + 1)) + max 1 ct + 1 : ℕ) : ℚ) ≠ 0 := by
          have := Nat.le_max_left 1 ct
          exact_mod_cast (by omega :
            (npArgmax (r.drop (max 1 ct + 1)) + max 1 ct + 1 : ℕ) ≠ 0)
        simp only [get_f0_from_acf, hfi, hemp, Bool.false_eq_true, if_false,
          Bool.false_and]
        rw [fvDiv_some_of_ne _ hne]

/-- Claim C6: for any signal, natural block size, hop of at least 1 and
positive sample rate, blocking returns ceil(L/H) blocks; block n is the
slice of length B starting at n*H of the signal right-padded with B zeros,
and timestamp n is n*H/fs. -/
theorem c6_blocking_determinism (x : List ℚ) (B : ℕ) (H : ℤ) (fs : ℚ)
    (hH : 1 ≤ H) (hfs : 0 < fs) :
    ∃ xb t, block_audio (0 : ℚ) x (B : ℤ) H fs = .ok (xb, t) ∧
      (xb.length : ℤ) = ⌈(x.length : ℚ) / (H : ℚ)⌉ ∧
      t.length = xb.length ∧
      (∀ n, n < xb.length →
        xb.getD n [] = ((x ++ List.replicate B 0).drop (n * H.toNat)).take B) ∧
      (∀ n, n < t.length →
        t.getD n none = some ((n : ℚ) * (H : ℚ) / fs)) := by
  have hB : (0 : ℤ) ≤ (B : ℤ) := Int.natCast_nonneg B
  have hnb0 : 0 ≤ ⌈(x.length : ℚ) / (H : ℚ)⌉ := by
    apply Int.ceil_nonneg
    apply div_nonneg
    · exact_mod_cast Nat.zero_le _
    · exact_mod_cast (by omega : (0:ℤ) ≤ H)
  have heq := block_audio_eq (0 : ℚ) x (B : ℤ) H fs hB hH
  simp only [Int.toNat_natCast] at heq
  refine ⟨_, _, heq, ?_, by simp, ?_, ?_⟩
  · rw [List.length_map, List.length_range]
    exact Int.toNat_of_nonneg hnb0
  · intro n hn
    rw [List.length_map, List.length_range] at hn
    rw [map_range_getD _ _ _ _ hn]
    have hceil : (n : ℤ) < ⌈(x.length : ℚ) / (H : ℚ)⌉ := by omega
    have hq : ((n : ℤ) : ℚ) < (x.length : ℚ) / (H : ℚ) := Int.lt_ceil.mp hceil
    have hHpos : (0:ℚ) < (H : ℚ) := by exact_mod_cast (by omega : (0:ℤ) < H)
    have hmul : (n : ℚ) * (H : ℚ) < (x.length : ℚ) := by
      rw [← lt_div_iff hHpos]
      exact_mod_cast hq
    have hHt : ((H.toNat : ℤ)) = H := Int.toNat_of_nonneg (by omega)
    have hHtq : ((H.toNat : ℚ)) = (H : ℚ) := by exact_mod_cast congrArg Int.cast hHt
    have hcast : ((n * H.toNat : ℕ) : ℚ) = (n : ℚ) * (H : ℚ) := by
      push_cast
      rw [hHtq]
    have hlt : n * H.toNat < x.length := by
      have := hcast ▸ hmul
      exact_mod_cast this
    have hmin : min ((x ++ List.replicate B (0:ℚ)).length)
        (n * H.toNat + B) - n * H.toNat = B := by
      rw [List.length_append, List.length_replicate]
      omega
    rw [hmin]
  · intro n hn
    rw [List.length_map, List.length_range] at hn
    rw [map_range_getD _ _ _ _ hn, fvDiv_some_of_ne _ (ne_of_gt hfs)]

/-- Claim C6, witness at a concrete signal, block size 2, hop 2 and sample
rate 2. -/
theorem c6_witness :
    (1 : ℤ) ≤ 2 ∧ ((0 : ℚ) < 2) ∧
    (∃ xb t, block_audio (0 : ℚ) [1, 2, 3] ((2 : ℕ) : ℤ) 2 2 = .ok (xb, t) ∧
      (xb.length : ℤ) = ⌈(([1, 2, 3] : List ℚ).length : ℚ) / ((2 : ℤ) : ℚ)⌉ ∧
      t.length = xb.length ∧
      (∀ n, n < xb.length →
        xb.getD n [] = ((([1, 2, 3] : List ℚ) ++ List.replicate 2 0).drop
          (n * (2 : ℤ).toNat)).take 2) ∧
      (∀ n, n < t.length →
        t.getD n none = some ((n : ℚ) * ((2 : ℤ) : ℚ) / 2))) :=
  ⟨by norm_num, by norm_num,
    c6_blocking_determinism [1, 2, 3] 2 2 2 (by norm_num) (by norm_num)⟩

lemma quadratic_interp_some (a b c : ℚ) :
    quadratic_interp (some a) (some b) (some c) = some (qinterpQ a b c) := by
  unfold quadratic_interp qinterpQ
  simp only [fvMul_some_some, fvSub_some_some, fvAdd_some_some,
    Option.some.injEq]
  by_cases h : a - 2 * b + c = 0
  · rw [if_pos h, if_pos h]
  · rw [if_neg h, if_neg h, fvDiv_some_of_ne _ h]

/-- Claim C5 (amended with the hypothesis that the ACF vector has at least
3 entries): when the first differences have a strictly positive entry at
first index ct, the locator takes cutoff = max 1 ct, picks the peak lag f as
the index of the first maximum of the slice after cutoff shifted back into
the full vector, optionally adds the quadratic offset computed from the
neighbours of f (the right one clamped at the last index), and returns
fs / f. -/
theorem c5_peak_locator (r : List ℚ) (fs : ℚ) (itp : Bool) (ct : ℕ)
    (hlen : 3 ≤ r.length) (hct : ct + 1 < r.length)
    (hpos : r.getD ct 0 < r.getD (ct + 1) 0)
    (hmin : ∀ j < ct, ¬ r.getD j 0 < r.getD (j + 1) 0) :
    ∃ f : ℕ, max 1 ct + 1 ≤ f ∧ f < r.length ∧
      (∀ j, max 1 ct + 1 ≤ j → j < r.length → r.getD j 0 ≤ r.getD f 0) ∧
      (∀ j, max 1 ct + 1 ≤ j → j < f → r.getD j 0 < r.getD f 0) ∧
      get_f0_from_acf (r.map some) fs itp = .ok (fvDiv (some fs) (some (
        if itp then (f : ℚ) + qinterpQ (r.getD (f - 1) 0) (r.getD f 0)
          (if f + 1 = r.length then r.getD f 0 else r.getD (f + 1) 0)
        else (f : ℚ)))) := by
  have hdlen : (List.zipWith fvSub ((r.map some).drop 1) (r.map some)).length
      = r.length - 1 := by
    rw [List.length_zipWith, List.length_drop, List.length_map]
    omega
  have hfi : List.findIdx? fvPos
      (List.zipWith fvSub ((r.map some).drop 1) (r.map some)) = some ct := by
    apply findIdx?_eq_some_of fvPos none
    · rw [hdlen]; omega
    · rw [zipWith_getD fvSub _ _ ct (by rw [hdlen]; omega),
        getD_drop (r.map some) 1 ct none, Nat.add_comm 1 ct,
        getD_map_some r (by omega : ct + 1 < r.length),
        getD_map_some r (by omega : ct < r.length),
        fvSub_some_some, fvPos_some, decide_eq_true_eq]
      linarith
    · intro j hj
      rw [zipWith_getD fvSub _ _ j (by rw [hdlen]; omega),
        getD_drop (r.map some) 1 j none, Nat.add_comm 1 j,
        getD_map_some r (by omega : j + 1 < r.length),
        getD_map_some r (by omega : j < r.length),
        fvSub_some_some, fvPos_some, decide_eq_false_iff_not]
      have := hmin j hj
      intro hcon
      exact this (by linarith)
  have hco2 : max 1 ct ≤ r.length - 2 := Nat.max_le.mpr ⟨by omega, by omega⟩
  have hsegpos : 0 < ((r.map some).drop (max 1 ct + 1)).length := by
    rw [List.length_drop, List.length_map]
    omega
  have hemp : ((r.map some).drop (max 1 ct + 1)).isEmpty = false := by
    cases hcc : (r.map some).drop (max 1 ct + 1) with
    | nil => rw [hcc] at hsegpos; simp at hsegpos
    | cons _ _ => rfl
  have hsegmap : (r.map some).drop (max 1 ct + 1) =
      (r.drop (max 1 ct + 1)).map some := (List.map_drop some r _).symm
  have hu : r.drop (max 1 ct + 1) ≠ [] := by
    intro hnil
    rw [hsegmap, hnil] at hsegpos
    simp at hsegpos
  obtain ⟨hi0lt, hi0max, hi0first⟩ :=
    npArgmax_map_some_spec (r.drop (max 1 ct + 1)) hu
  rw [List.length_drop] at hi0lt
  refine ⟨npArgmax ((r.drop (max 1 ct + 1)).map some) + max 1 ct + 1,
    by omega, by omega, ?_, ?_, ?_⟩
  · intro j hj1 hj2
    have hj' : j - (max 1 ct + 1) < (r.drop (max 1 ct + 1)).length := by
      rw [List.length_drop]; omega
    have h := hi0max (j - (max 1 ct + 1)) hj'
    rw [getD_drop, getD_drop] at h
    have e1 : max 1 ct + 1 + (j - (max 1 ct + 1)) = j := by omega
    have e2 : max 1 ct + 1 + npArgmax ((r.drop (max 1 ct + 1)).map some) =
        npArgmax ((r.drop (max 1 ct + 1)).map some) + max 1 ct + 1 := by omega
    rw [e1, e2] at h
    exact h
  · intro j hj1 hj2
    have hj' : j - (max 1 ct + 1) < npArgmax ((r.drop (max 1 ct + 1)).map some) := by
      omega
    have h := hi0first (j - (max 1 ct + 1)) hj'
    rw [getD_drop, getD_drop] at h
    have e1 : max 1 ct + 1 + (j - (max 1 ct + 1)) = j := by omega
    have e2 : max 1 ct + 1 + npArgmax ((r.drop (max 1 ct + 1)).map some) =
        npArgmax ((r.drop (max 1 ct + 1)).map some) + max 1 ct + 1 := by omega
    rw [e1, e2] at h
    exact h
  · cases itp with
    | false =>
      simp only [get_f0_from_acf, hfi, hemp, Bool.false_eq_true, if_false,
        Bool.false_and]
      rw [hsegmap]
    | true =>
      simp only [get_f0_from_acf, hfi, hemp, Bool.false_eq_true, if_false,
        Bool.true_and, if_true]
      rw [hsegmap]
      have hdec : decide (0 < npArgmax ((r.drop (max 1 ct + 1)).map some) +
          max 1 ct + 1) = true := by
        rw [decide_eq_true_eq]
        omega
      rw [hdec, if_pos rfl]
      have harith : npArgmax ((r.drop (max 1 ct + 1)).map some) + max 1 ct + 1 - 1
          = npArgmax ((r.drop (max 1 ct + 1)).map some) + max 1 ct := by omega
      have hb1 : npArgmax ((r.drop (max 1 ct + 1)).map some) + max 1 ct < r.length := by
        omega
      have hb2 : npArgmax ((r.drop (max 1 ct + 1)).map some) + max 1 ct + 1 < r.length := by
        omega
      rw [harith, getD_map_some r hb1, getD_map_some r hb2, List.length_map]
      by_cases hlast : npArgmax ((r.drop (max 1 ct + 1)).map some) + max 1 ct + 1 + 1
          = r.length
      · rw [if_pos hlast, if_pos hlast, quadratic_interp_some, fvAdd_some_some]
      · rw [if_neg hlast, if_neg hlast,
          getD_map_some r (by omega : npArgmax ((r.drop (max 1 ct + 1)).map some) +
            max 1 ct + 1 + 1 < r.length),
          quadratic_interp_some, fvAdd_some_some]

/-- Claim C5, counterexample to the unamended claim: a two-entry ACF whose
single first difference is strictly positive makes the locator run
np.argmax on an empty slice, raising ValueError instead of returning
sample_rate / f. -/
theorem c5_counterexample :
    fvPos (fvSub (some 1) (some 0)) = true ∧
    get_f0_from_acf [some 0, some 1] 100 false = .err := by
  constructor
  · norm_num [fvSub, fvBin, fvPos]
  · norm_num [get_f0_from_acf, List.findIdx?_cons, fvSub, fvBin, fvPos]

/-- Claim C5, witness at the concrete ACF vector [3, 1, 2, 0] with
interpolation on. -/
theorem c5_witness :
    3 ≤ ([3, 1, 2, 0] : List ℚ).length ∧ 1 + 1 < ([3, 1, 2, 0] : List ℚ).length ∧
    ([3, 1, 2, 0] : List ℚ).getD 1 0 < ([3, 1, 2, 0] : List ℚ).getD (1 + 1) 0 ∧
    (∃ f : ℕ, max 1 1 + 1 ≤ f ∧ f < ([3, 1, 2, 0] : List ℚ).length ∧
      (∀ j, max 1 1 + 1 ≤ j → j < ([3, 1, 2, 0] : List ℚ).length →
        ([3, 1, 2, 0] : List ℚ).getD j 0 ≤ ([3, 1, 2, 0] : List ℚ).getD f 0) ∧
      (∀ j, max 1 1 + 1 ≤ j → j < f →
        ([3, 1, 2, 0] : List ℚ).getD j 0 < ([3, 1, 2, 0] : List ℚ).getD f 0) ∧
      get_f0_from_acf (([3, 1, 2, 0] : List ℚ).map some) 11 true =
        .ok (fvDiv (some 11) (some (
          if true then (f : ℚ) + qinterpQ (([3, 1, 2, 0] : List ℚ).getD (f - 1) 0)
            (([3, 1, 2, 0] : List ℚ).getD f 0)
            (if f + 1 = ([3, 1, 2, 0] : List ℚ).length
              then ([3, 1, 2, 0] : List ℚ).getD f 0
              else ([3, 1, 2, 0] : List ℚ).getD (f + 1) 0)
          else (f : ℚ))))) := by
  refine ⟨by norm_num, by norm_num, by norm_num, ?_⟩
  exact c5_peak_locator [3, 1, 2, 0] 11 true 1 (by norm_num) (by norm_num)
    (by norm_num)
    (by
      intro j hj
      have : j = 0 := by omega
      subst this
      norm_num)

set_option maxHeartbeats 2000000 in
/-- Claim C1 (code bug, theorem evaluating the code): the output of
track_vibrato_freq does not depend on the filter field of the params object
at all (the source passes the truthy Python builtin named filter instead of
params.filter, so the filtering branch is always taken); and filtering is
not a no-op: at a concrete signal the conditioned contour with the
filtering branch differs from the mean-removal-only contour, so a params
object with filter set to false still gets the filtered conditioning,
contradicting the claim that only mean removal is applied. -/
theorem c1_filter_flag_ignored :
    (∀ (bc ac : List ℚ) (x : List ℚ) (bs hs : ℤ) (fs : ℚ)
       (fl1 fl2 itp : Bool) (hd : ℤ) (wd : ℚ) (afs : ℚ) (ws whs : ℤ),
      track_vibrato_freq bc ac x ⟨bs, hs, fs, fl1, itp, hd, wd, afs, ws, whs⟩ =
        track_vibrato_freq bc ac x ⟨bs, hs, fs, fl2, itp, hd, wd, afs, ws, whs⟩) ∧
    compute_processed_f0 [2] [1] [1, -1, 1, 0, 1, 1] 3 3 1 true false ≠
      compute_processed_f0 [2] [1] [1, -1, 1, 0, 1, 1] 3 3 1 false false := by
  constructor
  · intro bc ac x bs hs fs fl1 fl2 itp hd wd afs ws whs
    rfl
  · have hba : block_audio (0:ℚ) [1, -1, 1, 0, 1, 1] 3 3 1 =
        .ok ([[1, -1, 1], [0, 1, 1]], [some 0, some 3]) := by
      have hc : (⌈(6:ℚ)/(3:ℚ)⌉ : ℤ) = 2 := by
        rw [Int.ceil_eq_iff]
        norm_num
      have ht3 : (3:ℤ).toNat = 3 := rfl
      have ht2 : (2:ℤ).toNat = 2 := rfl
      norm_num [block_audio, hc, ht3, ht2, fvDiv, List.range_succ,
        List.replicate_succ]
    have hb1 : get_f0_from_acf (comp_acf (([1, -1, 1] : List ℚ).map some)
        true) 1 false = .ok (some (1/2)) := by
      norm_num [comp_acf, fvDot, fvSum, fvMul, fvAdd, fvDiv, fvBin,
        List.range_succ, get_f0_from_acf, List.findIdx?_cons, fvSub, fvPos,
        npArgmax, fvArgmaxAux, fvBeats]
    have hb2 : get_f0_from_acf (comp_acf (([0, 1, 1] : List ℚ).map some)
        true) 1 false = .ok (some 0) := by
      norm_num [comp_acf, fvDot, fvSum, fvMul, fvAdd, fvDiv, fvBin,
        List.range_succ, get_f0_from_acf, List.findIdx?_cons, fvSub, fvPos,
        npArgmax, fvArgmaxAux, fvBeats]
    have hmr : mapRes (fun block =>
        get_f0_from_acf (comp_acf ((block : List ℚ).map some) true) 1 false)
        [[1, -1, 1], [0, 1, 1]] = .ok [some (1/2), some 0] :=
      mapRes_cons_ok _ _ _ hb1 (mapRes_cons_ok _ _ _ hb2 (mapRes_nil _))
    have htp : track_pitch_acf [1, -1, 1, 0, 1, 1] 3 3 1 false =
        .ok ([some (1/2), some 0], [some 0, some 3]) := by
      simp only [track_pitch_acf, hba, hmr]
    have hvfs : vibrato_fs 1 3 = .ok (1/3) := by
      norm_num [vibrato_fs]
    have hrm : (remove_mean [some (1/2), some 0]).1 =
        [some (1/4), some (-(1/4))] := by
      norm_num [remove_mean, fvSum, fvAdd, fvBin, fvDiv, fvSub]
    have hmf : median_filter [some (1/4), some (-(1/4))] =
        [some 0, some 0] := by
      norm_num [median_filter, List.range_succ, fvMed3, List.getD]
    have hlf : lfilter [2] [1] [some 0, some 0] = [some 0, some 0] := by
      norm_num [lfilter, List.range_succ, lfilterNext, fvSum, fvAdd, fvMul,
        fvSub, fvDiv, fvBin, List.getD]
    have h1 : compute_processed_f0 [2] [1] [1, -1, 1, 0, 1, 1] 3 3 1 true
        false = .ok ([some 0, some 0], 1/3) := by
      simp only [compute_processed_f0, htp, hvfs, hrm, if_true,
        vibrato_lpf, hmf, hlf]
    have h2 : compute_processed_f0 [2] [1] [1, -1, 1, 0, 1, 1] 3 3 1 false
        false = .ok ([some (1/4), some (-(1/4))], 1/3) := by
      simp only [compute_processed_f0, htp, hvfs, hrm, Bool.false_eq_true,
        if_false]
    rw [h1, h2]
    norm_num

/-- Claim C4 (amended): with well-formed parameters (hop and window hop at
least 1, hop_denominator at least 1, nonnegative block and window sizes)
and a contour long enough that the window count is at least
hop_denominator - 1, both track_vibrato_freq and track_rms_vibrato_freq
return, without aborting, rate and time arrays of equal length
ceil(contour_length / window_hop_size) - (hop_denominator - 1), where
contour_length = ceil(signal_length / hop_size); for shorter signals the
call instead aborts (see the counterexample). -/
theorem c4_window_trimming (sq : ℚ → ℚ) (bc ac : List ℚ) (x : List ℚ)
    (p : VibratoTrackerParams)
    (hB : 0 ≤ p.block_size) (hH : 1 ≤ p.hop_size)
    (hHD : 1 ≤ p.hop_denominator) (hW : 0 ≤ p.window_size)
    (hWH : 1 ≤ p.window_hop_size)
    (hcnt : p.hop_denominator - 1 ≤
      ⌈(((⌈(x.length : ℚ) / (p.hop_size : ℚ)⌉.toNat : ℕ) : ℚ)) /
        (p.window_hop_size : ℚ)⌉) :
    (∃ rates times, track_vibrato_freq bc ac x p = .ok (rates, times) ∧
      (rates.length : ℤ) =
        ⌈(((⌈(x.length : ℚ) / (p.hop_size : ℚ)⌉.toNat : ℕ) : ℚ)) /
          (p.window_hop_size : ℚ)⌉ - (p.hop_denominator - 1) ∧
      times.length = rates.length) ∧
    (∃ rates times, track_rms_vibrato_freq sq x p = .ok (rates, times) ∧
      (rates.length : ℤ) =
        ⌈(((⌈(x.length : ℚ) / (p.hop_size : ℚ)⌉.toNat : ℕ) : ℚ)) /
          (p.window_hop_size : ℚ)⌉ - (p.hop_denominator - 1) ∧
      times.length = rates.length) := by
  have hvfs : vibrato_fs p.fs p.hop_size = .ok (p.fs / (p.hop_size : ℚ)) := by
    rw [vibrato_fs, if_neg (by omega : ¬ p.hop_size = 0)]
  constructor
  · -- the F0-domain tracker
    obtain ⟨f0n, hcpf, hf0len⟩ := compute_processed_f0_ok bc ac x
      p.block_size p.hop_size p.fs true p.interpolate hB hH
    have hf0nat : f0n.length = (⌈(x.length : ℚ) / (p.hop_size : ℚ)⌉).toNat := by
      omega
    obtain ⟨ws, ts, hba2, hwlen, htlen⟩ := block_audio_ok_lengths
      (some 0 : FV) f0n p.window_size p.window_hop_size
      (p.fs / (p.hop_size : ℚ)) hW hWH
    rw [hf0nat] at hwlen
    have hper : ∀ w : List FV,
        ∃ v, find_vibrato_freq_from_f0 w (p.fs / (p.hop_size : ℚ)) true = .ok v := by
      intro w
      obtain ⟨v, hv⟩ := get_f0_comp_acf_ok w (p.fs / (p.hop_size : ℚ)) true
      exact ⟨v, by simpa [find_vibrato_freq_from_f0, vibrato_frequency] using hv⟩
    obtain ⟨rates, hmr, hrlen⟩ := mapRes_ok
      (fun w => find_vibrato_freq_from_f0 w (p.fs / (p.hop_size : ℚ)) true)
      (ws.take (((ws.length : ℤ) - (p.hop_denominator - 1)).toNat))
      (fun w _ => hper w)
    have hnum0 : ¬ ((ws.length : ℤ) - (p.hop_denominator - 1) < 0) := by omega
    have hguard2 : ¬ ((ws.length : ℤ) <
        (ws.length : ℤ) - (p.hop_denominator - 1)) := by omega
    refine ⟨rates,
      ts.take (((ws.length : ℤ) - (p.hop_denominator - 1)).toNat), ?_, ?_, ?_⟩
    · simp only [track_vibrato_freq, hcpf, hba2]
      rw [if_neg hnum0, if_neg hguard2, hmr]
    · rw [hrlen, List.length_take]
      omega
    · rw [List.length_take, hrlen, List.length_take, htlen]
  · -- the RMS-domain tracker
    obtain ⟨xb, t, hbar, hxblen, _⟩ := block_audio_ok_lengths (0 : ℚ) x
      p.block_size p.hop_size p.fs hB hH
    have htr : track_rms sq x p.block_size p.hop_size p.fs =
        .ok (extract_rms sq xb, t) := by
      simp only [track_rms, hbar]
    have hrmslen : (extract_rms sq xb).length =
        (⌈(x.length : ℚ) / (p.hop_size : ℚ)⌉).toNat := by
      rw [extract_rms, List.length_map]
      omega
    obtain ⟨ws, ts, hba2, hwlen, htlen⟩ := block_audio_ok_lengths
      (some 0 : FV) (extract_rms sq xb) p.window_size p.window_hop_size
      (p.fs / (p.hop_size : ℚ)) hW hWH
    rw [hrmslen] at hwlen
    have hper : ∀ w : List FV,
        ∃ v, find_vibrato_freq_from_rms w (p.fs / (p.hop_size : ℚ)) true = .ok v := by
      intro w
      obtain ⟨v, hv⟩ := get_f0_comp_acf_ok ((remove_mean w).1)
        (p.fs / (p.hop_size : ℚ)) true
      have hvf : vibrato_frequency w (p.fs / (p.hop_size : ℚ)) false true = .ok v := by
        simpa [vibrato_frequency] using hv
      exact ⟨fvDiv v (some 2), by simp only [find_vibrato_freq_from_rms, hvf]⟩
    obtain ⟨rates, hmr, hrlen⟩ := mapRes_ok
      (fun w => find_vibrato_freq_from_rms w (p.fs / (p.hop_size : ℚ)) true)
      (ws.take (((ws.length : ℤ) - (p.hop_denominator - 1)).toNat))
      (fun w _ => hper w)
    have hnum0 : ¬ ((ws.length : ℤ) - (p.hop_denominator - 1) < 0) := by omega
    have hguard2 : ¬ ((ws.length : ℤ) <
        (ws.length : ℤ) - (p.hop_denominator - 1)) := by omega
    refine ⟨rates,
      ts.take (((ws.length : ℤ) - (p.hop_denominator - 1)).toNat), ?_, ?_, ?_⟩
    · simp only [track_rms_vibrato_freq, htr, hvfs, hba2]
      rw [if_neg hnum0, if_neg hguard2, hmr]
    · rw [hrlen, List.length_take]
      omega
    · rw [List.length_take, hrlen, List.length_take, htlen]

/-- Claim C4, counterexample to the unamended claim: with the default
hop_denominator 5, a one-sample signal yields a single contour window, the
cut count 4 exceeds it, num_windows is negative, and np.zeros(num_windows)
raises ValueError — the call aborts instead of returning arrays of the
expected (negative) length. -/
theorem c4_counterexample :
    track_vibrato_freq [1] [1] [1] ⟨1, 1, 1, true, true, 5, 1/2, 1, 1, 1⟩ =
      .err := by
  have hc1 : (⌈(1:ℚ)/(1:ℚ)⌉ : ℤ) = 1 := by
    rw [Int.ceil_eq_iff]
    norm_num
  have ht1 : (1:ℤ).toNat = 1 := rfl
  have hba : block_audio (0:ℚ) [1] 1 1 1 = .ok ([[1]], [some 0]) := by
    norm_num [block_audio, hc1, ht1, fvDiv, List.range_succ,
      List.replicate_succ]
  have hb1 : get_f0_from_acf (comp_acf (([1] : List ℚ).map some) true) 1
      true = .ok (some 0) := by
    norm_num [comp_acf, fvDot, fvSum, fvMul, fvAdd, fvDiv, fvBin,
      List.range_succ, get_f0_from_acf, List.findIdx?]
  have hmr : mapRes (fun block =>
      get_f0_from_acf (comp_acf ((block : List ℚ).map some) true) 1 true)
      [[1]] = .ok [some 0] :=
    mapRes_cons_ok _ _ _ hb1 (mapRes_nil _)
  have htp : track_pitch_acf [1] 1 1 1 true = .ok ([some 0], [some 0]) := by
    simp only [track_pitch_acf, hba, hmr]
  have hvfs : vibrato_fs 1 1 = .ok 1 := by
    norm_num [vibrato_fs]
  have hrm : (remove_mean [some 0]).1 = [some 0] := by
    norm_num [remove_mean, fvSum, fvAdd, fvBin, fvDiv, fvSub]
  have hmf : median_filter [some 0] = [some 0] := by
    norm_num [median_filter, List.range_succ, fvMed3, List.getD]
  have hlf : lfilter [1] [1] [some 0] = [some 0] := by
    norm_num [lfilter, List.range_succ, lfilterNext, fvSum, fvAdd, fvMul,
      fvSub, fvDiv, fvBin, List.getD]
  have hcpf : compute_processed_f0 [1] [1] [1] 1 1 1 true true =
      .ok ([some 0], 1) := by
    simp only [compute_processed_f0, htp, hvfs, hrm, if_true, vibrato_lpf,
      hmf, hlf]
  have hba2 : block_audio (some 0 : FV) [some 0] 1 1 1 =
      .ok ([[some 0]], [some 0]) := by
    norm_num [block_audio, hc1, ht1, fvDiv, List.range_succ,
      List.replicate_succ]
  simp only [track_vibrato_freq, hcpf, hba2]
  norm_num

/-- Claim C4, witness at a one-sample signal with hop_denominator 1 (no
windows cut), where both trackers return arrays of the expected length. -/
theorem c4_witness :
    ((1:ℤ) - 1 ≤
      ⌈(((⌈((([1] : List ℚ).length : ℚ)) / ((1:ℤ) : ℚ)⌉.toNat : ℕ) : ℚ)) /
        ((1:ℤ) : ℚ)⌉) ∧
    ((∃ rates times, track_vibrato_freq [1] [1] [1]
          ⟨1, 1, 1, true, true, 1, 1, 1, 1, 1⟩ = .ok (rates, times) ∧
        (rates.length : ℤ) =
          ⌈(((⌈((([1] : List ℚ).length : ℚ)) / ((1:ℤ) : ℚ)⌉.toNat : ℕ) : ℚ)) /
            ((1:ℤ) : ℚ)⌉ - ((1:ℤ) - 1) ∧
        times.length = rates.length) ∧
      (∃ rates times, track_rms_vibrato_freq (fun q => q) [1]
          ⟨1, 1, 1, true, true, 1, 1, 1, 1, 1⟩ = .ok (rates, times) ∧
        (rates.length : ℤ) =
          ⌈(((⌈((([1] : List ℚ).length : ℚ)) / ((1:ℤ) : ℚ)⌉.toNat : ℕ) : ℚ)) /
            ((1:ℤ) : ℚ)⌉ - ((1:ℤ) - 1) ∧
        times.length = rates.length)) := by
  have hcnt : ((1:ℤ) - 1 ≤
      ⌈(((⌈((([1] : List ℚ).length : ℚ)) / ((1:ℤ) : ℚ)⌉.toNat : ℕ) : ℚ)) /
        ((1:ℤ) : ℚ)⌉) := by
    norm_num [Int.ceil_one, Int.toNat_one]
  exact ⟨hcnt, c4_window_trimming (fun q => q) [1] [1] [1]
    ⟨1, 1, 1, true, true, 1, 1, 1, 1, 1⟩ (by norm_num) (by norm_num)
    (by norm_num) (by norm_num) (by norm_num) hcnt⟩

end VibratoAnalysis
